import Mathlib

/-!
Shallow embedding of the transcription-analysis pipeline in `wise.py`
(functions `clean_transcription`, `calcular_estatisticas`,
`analisar_sentimento`, `format_timestamp`, `format_transcription`,
`generate_csv`) together with theorems settling the frozen claims.

Python strings are modelled as `List Char`, Python floats as `ℚ`,
Python ints as `ℤ`/`ℕ`.  Python's Unicode character classes are
modelled on the repertoire that actually occurs in this repository's
data (ASCII plus Latin-1 accented letters used by Portuguese).  All
definitions use structural recursion so that concrete runs evaluate
inside the kernel.
-/

/-- Python's `\s` / `str.split()` whitespace class, restricted to the ASCII
whitespace characters (space, tab, newline, carriage return, vertical tab,
form feed).  The repository's texts contain no exotic Unicode spaces. -/
def pyIsSpace (c : Char) : Bool :=
  c = ' ' || c = '\t' || c = '\n' || c = '\r' ||
  c = Char.ofNat 11 || c = Char.ofNat 12

/-- Python's regex word class `\w` (used by `\b` in `clean_transcription`):
ASCII alphanumerics, underscore, and (approximating the full Unicode class)
every non-ASCII character — which covers the accented Portuguese letters
appearing in this repository. -/
def isWordChar (c : Char) : Bool :=
  c.isAlphanum || c = '_' || decide (128 ≤ c.toNat)

/-- Python's `str.lower()` on the character repertoire of this repository:
ASCII uppercase and the Latin-1 uppercase letters U+00C0–U+00DE (excluding
the multiplication sign U+00D7) map down by 32; everything else is fixed. -/
def pyToLower (c : Char) : Char :=
  if 'A' ≤ c ∧ c ≤ 'Z' then Char.ofNat (c.toNat + 32)
  else if 0xC0 ≤ c.toNat ∧ c.toNat ≤ 0xDE ∧ c.toNat ≠ 0xD7 then
    Char.ofNat (c.toNat + 32)
  else c

/-- Python `str.lstrip()` (whitespace variant). -/
def lstripWs (l : List Char) : List Char := l.dropWhile pyIsSpace

/-- Python `str.rstrip()` (whitespace variant). -/
def rstripWs (l : List Char) : List Char := (l.reverse.dropWhile pyIsSpace).reverse

/-- Python `str.strip()` (whitespace variant). -/
def pystrip (l : List Char) : List Char := rstripWs (lstripWs l)

/-- Worker for `splitWs`; `acc` holds the (reversed) word being read. -/
def splitWsGo (acc : List Char) : List Char → List (List Char)
  | [] => if acc.isEmpty then [] else [acc.reverse]
  | c :: cs =>
    if pyIsSpace c then
      if acc.isEmpty then splitWsGo [] cs else acc.reverse :: splitWsGo [] cs
    else splitWsGo (c :: acc) cs

/-- Python `str.split()` with no separator: split on runs of whitespace,
discarding empty pieces (wise.py line 27: `texto.lower().split()`). -/
def splitWs (l : List Char) : List (List Char) := splitWsGo [] l

/-- Worker for `collapseWs`; `inSpace` records whether the previous
character was whitespace (whose run has already emitted its space). -/
def collapseWsGo (inSpace : Bool) : List Char → List Char
  | [] => []
  | c :: cs =>
    if pyIsSpace c then
      if inSpace then collapseWsGo true cs else ' ' :: collapseWsGo true cs
    else c :: collapseWsGo false cs

/-- The first regex of `clean_transcription` (wise.py line 22):
`re.sub(r'\s+', ' ', text)` — each maximal run of whitespace becomes a
single space. -/
def collapseWs (l : List Char) : List Char := collapseWsGo false l

/-- A `\b` word boundary holds before a match iff the text starts there or
the previous character is a non-word character. -/
def boundaryBeforeB : Option Char → Bool
  | none => true
  | some p => !isWordChar p

/-- A `\b` word boundary holds after a match iff the rest of the text is
empty or starts with a non-word character. -/
def boundaryAfterB : List Char → Bool
  | [] => true
  | d :: _ => !isWordChar d

/-- The second regex of `clean_transcription` (wise.py line 23):
`re.sub(r'\b(e|então)\b', r', \1', text, flags=re.IGNORECASE)`.
The scanner walks left to right carrying the previous character (for the
leading `\b`); at each boundary position it first tries the alternative
`e`, then `então`, case-insensitively, and on a match emits `", "` followed
by the original matched text, resuming after the match (non-overlapping,
exactly as `re.sub`). -/
def subConnGo : Nat → Option Char → List Char → List Char
  | 0, _, _ => []
  | _ + 1, _, [] => []
  | fuel + 1, prev, c :: cs =>
    if boundaryBeforeB prev then
      if pyToLower c = 'e' && boundaryAfterB cs then
        ',' :: ' ' :: c :: subConnGo fuel (some c) cs
      else
        match cs with
        | c2 :: c3 :: c4 :: c5 :: rest =>
          if pyToLower c = 'e' && pyToLower c2 = 'n' && pyToLower c3 = 't' &&
             pyToLower c4 = 'ã' && pyToLower c5 = 'o' && boundaryAfterB rest then
            ',' :: ' ' :: c :: c2 :: c3 :: c4 :: c5 :: subConnGo fuel (some c5) rest
          else c :: subConnGo fuel (some c) cs
        | _ => c :: subConnGo fuel (some c) cs
    else c :: subConnGo fuel (some c) cs

/-- The full connector substitution.  The fuel `l.length` is an upper bound
on the number of scanner steps, since every step consumes at least one
character; it is therefore never exhausted. -/
def subConn (l : List Char) : List Char := subConnGo l.length none l

/-- wise.py lines 21–24: collapse whitespace, insert a comma before each
standalone case-insensitive `e` / `então`, then strip. -/
def clean_transcription (text : List Char) : List Char :=
  pystrip (subConn (collapseWs text))

/-- Zero-padding to width 2, as Python's format spec `{:02}` renders an
`int` (wise.py line 85): pad a single-character decimal representation
with a leading `0`, leave longer representations alone. -/
def pad2 (z : ℤ) : List Char :=
  if (toString z).data.length = 1 then '0' :: (toString z).data else (toString z).data

/-- wise.py lines 81–85: `format_timestamp(milliseconds)` with Python's
floor division `//` and floor modulo `%` (here `Int.fdiv` / `Int.fmod`),
producing `f"({minutes}:{seconds:02})"`.  There is no input validation in
the source: the function is total. -/
def format_timestamp (milliseconds : ℤ) : List Char :=
  '(' :: (toString (Int.fdiv milliseconds 1000 |>.fdiv 60)).data ++
    ':' :: pad2 (Int.fmod (Int.fdiv milliseconds 1000) 60) ++ [')']

/-- One update step of `collections.Counter`: increment the count of `w`
in place if present, else append `(w, 1)` at the end (Python dicts keep
insertion order, so new keys go last). -/
def bump (w : List Char) : List (List Char × ℕ) → List (List Char × ℕ)
  | [] => [(w, 1)]
  | p :: ps => if p.1 = w then (p.1, p.2 + 1) :: ps else p :: bump w ps

/-- wise.py line 30: `Counter(palavras)` as an association list in key
insertion order (= first-occurrence order of the tokens). -/
def countsList (l : List (List Char)) : List (List Char × ℕ) :=
  l.foldl (fun acc w => bump w acc) []

/-- Lookup in a `Counter`: a missing key has count 0 (wise.py line 32 uses
`contagem_palavras[palavra]`, and `Counter.__missing__` returns 0). -/
def lookupCount (tab : List (List Char × ℕ)) (w : List Char) : ℕ :=
  match tab with
  | [] => 0
  | p :: ps => if p.1 = w then p.2 else lookupCount ps w

/-- The key sequence of a Counter association list (dict key order). -/
def keys (tab : List (List Char × ℕ)) : List (List Char) := tab.map Prod.fst

/-- Insert into a count-descending list, placing the new element before
the first strictly smaller count, so that among equal counts the element
inserted first stays first. -/
def insDesc (x : List Char × ℕ) : List (List Char × ℕ) → List (List Char × ℕ)
  | [] => [x]
  | h :: t => if h.2 ≤ x.2 then x :: h :: t else h :: insDesc x t

/-- wise.py line 31: `Counter.most_common()` — the entries sorted by count
descending with ties kept in insertion order.  Python uses a stable sort;
this stable insertion sort produces the same list. -/
def sortDesc : List (List Char × ℕ) → List (List Char × ℕ)
  | [] => []
  | x :: xs => insDesc x (sortDesc xs)

/-- wise.py lines 15–19: the fixed magic-word list `MAGIC_WORDS`. -/
def MAGIC_WORDS : List (List Char) :=
  ["obrigado".data, "obrigada".data, "por favor".data, "desculpa".data,
   "desculpe".data, "por gentileza".data, "bom dia".data, "boa tarde".data,
   "boa noite".data, "agradeço".data, "agradece".data, "gratidão".data,
   "sinto muito".data, "perdão".data, "me perdoe".data, "com licença".data]

/-- Tokenization used by both `calcular_estatisticas` (line 27) and
`analisar_sentimento` (lines 47–48): `text.lower().split()`. -/
def pytokens (t : List Char) : List (List Char) := splitWs (t.map pyToLower)

/-- The statistics dictionary returned by `calcular_estatisticas`
(wise.py lines 35–40). -/
structure Estatisticas where
  total_palavras : ℕ
  palavras_por_minuto : ℚ
  palavras_ordenadas : List (List Char × ℕ)
  percentual_magicas : ℚ
deriving DecidableEq

/-- wise.py lines 26–40: `calcular_estatisticas(texto, duracao_minutos)`.
The division on line 29 raises `ZeroDivisionError` exactly when
`duracao_minutos == 0` (and only then); this is the single failure path,
modelled with `Except`. -/
def calcular_estatisticas (texto : List Char) (duracao_minutos : ℚ) :
    Except String Estatisticas :=
  if duracao_minutos = 0 then Except.error "ZeroDivisionError" else
  let palavras := pytokens texto
  let total_palavras := palavras.length
  let palavras_por_minuto : ℚ := (total_palavras : ℚ) / duracao_minutos
  let contagem_palavras := countsList palavras
  let palavras_ordenadas := sortDesc contagem_palavras
  let total_magicas := (MAGIC_WORDS.map fun palavra => lookupCount contagem_palavras palavra).sum
  let percentual_magicas : ℚ :=
    if total_palavras > 0 then ((total_magicas : ℚ) / (total_palavras : ℚ)) * 100 else 0
  Except.ok ⟨total_palavras, palavras_por_minuto, palavras_ordenadas, percentual_magicas⟩

deriving instance DecidableEq for Except

/-- wise.py line 44. -/
def positive_words : List (List Char) :=
  ["bom".data, "ótimo".data, "excelente".data, "satisfeito".data, "maravilhoso".data]

/-- wise.py line 45. -/
def negative_words : List (List Char) :=
  ["ruim".data, "péssimo".data, "horrível".data, "insatisfeito".data, "terrível".data]

/-- wise.py lines 42–55: keyword-count sentiment.  `positive_count` and
`negative_count` count the lowercased whitespace-split tokens that are
members of the fixed keyword lists. -/
def analisar_sentimento (transcribed_text : List Char) : List Char :=
  let positive_count := (pytokens transcribed_text).countP (fun w => decide (w ∈ positive_words))
  let negative_count := (pytokens transcribed_text).countP (fun w => decide (w ∈ negative_words))
  if positive_count > negative_count then "Satisfeito".data
  else if negative_count > positive_count then "Insatisfeito".data
  else "Neutro".data

/-- One ASR segment as consumed by the pipeline: a start offset in seconds
and the segment text (wise.py `segment['start']`, `segment['text']`).
Start offsets are modelled as integers (the claims quantify over integer
millisecond offsets). -/
structure Segment where
  start : ℤ
  text : List Char
deriving DecidableEq

/-- The per-segment data shared by `format_transcription` (lines 90–91)
and `generate_csv` (lines 68–69): the display timestamp of
`start * 1000` and the stripped segment text. -/
def segPair (s : Segment) : List Char × List Char :=
  (format_timestamp (s.start * 1000), pystrip s.text)

/-- The display line of one segment: `f"{timestamp} {transcription}"`
(wise.py line 92). -/
def lineOf (s : Segment) : List Char := (segPair s).1 ++ ' ' :: (segPair s).2

/-- wise.py lines 87–93: the loop accumulates
`f"{timestamp} {transcription}\n\n"` per segment and strips the result. -/
def format_transcription (transcribed_segments : List Segment) : List Char :=
  pystrip (transcribed_segments.foldl (fun acc s => acc ++ (lineOf s ++ ['\n', '\n'])) [])

/-- wise.py lines 116–123 (the pure core of `upload_audio`): assemble the
transcript, derive the duration in minutes from the audio length in
milliseconds (line 117: `len(audio) / (1000 * 60)`), and feed the same
assembled text to the statistics engine and the sentiment classifier. -/
def upload_audio_core (transcribed_segments : List Segment) (audio_len_ms : ℚ) :
    List Char × Except String Estatisticas × List Char :=
  let formatted_transcription := format_transcription transcribed_segments
  let duracao_minutos := audio_len_ms / (1000 * 60)
  (formatted_transcription,
   calcular_estatisticas formatted_transcription duracao_minutos,
   analisar_sentimento formatted_transcription)

/-- wise.py lines 61–79: the rows of the CSV report, modelled at row level
(each row is its `timestamp` and `transcription` field; CSV quoting is a
transport detail below this embedding).  `writer.writerow({})` on line 72
emits the blank separator row (both fields default to the empty string);
numeric cells are rendered with `toString`. -/
def generate_csv (transcribed_segments : List Segment) (estatisticas : Estatisticas) :
    List (List Char × List Char) :=
  ("timestamp".data, "transcription".data) ::
  transcribed_segments.map segPair ++
  [([], []),
   ("Estatísticas".data, []),
   ("Total de palavras".data, (toString estatisticas.total_palavras).data),
   ("Palavras por minuto".data, (toString estatisticas.palavras_por_minuto).data),
   ("Percentual de palavras mágicas".data, (toString estatisticas.percentual_magicas).data)] ++
  estatisticas.palavras_ordenadas.map (fun wc => (wc.1, (toString wc.2).data))

/-- Re-parsing the report's segment section: the rows strictly between the
header row and the first blank row, as (timestamp, transcription) pairs. -/
def parseSegmentRows (rows : List (List Char × List Char)) :
    List (List Char × List Char) :=
  (rows.drop 1).takeWhile (fun r => decide (r ≠ ([], [])))

/-- Joining a list of lines with a separator, for the specification-side
reading of `format_transcription` ("join all emitted lines with a blank
line between them"). -/
def joinSep (sep : List Char) : List (List Char) → List Char
  | [] => []
  | [x] => x
  | x :: y :: t => x ++ sep ++ joinSep sep (y :: t)

/-- Modelled from the spec (§4.2): the assembled transcript is the
per-segment lines `"{timestamp} {text}"` joined with one blank line
between consecutive lines, with the final result stripped. -/
def assembledSpec (segs : List Segment) : List Char :=
  pystrip (joinSep ['\n', '\n'] (segs.map lineOf))

/-- First index of a word in a token list (length if absent): the position
of the word's first occurrence. -/
def firstIdx (l : List (List Char)) (w : List Char) : ℕ :=
  match l with
  | [] => 0
  | x :: xs => if x = w then 0 else firstIdx xs w + 1

/-! ### Supporting lemmas about stripping -/

lemma head_dropWhile_false {p : Char → Bool} {l : List Char} {c : Char}
    (h : (l.dropWhile p).head? = some c) : p c = false := by
  induction l with
  | nil => simp [List.dropWhile] at h
  | cons a as ih =>
    rw [List.dropWhile_cons] at h
    by_cases hp : p a
    · rw [if_pos hp] at h; exact ih h
    · rw [if_neg hp] at h
      simp only [List.head?_cons, Option.some.injEq] at h
      rw [← h]; exact Bool.eq_false_iff.mpr hp

lemma suffix_dropWhile (p : Char → Bool) (l : List Char) :
    ∃ t, t ++ l.dropWhile p = l := by
  induction l with
  | nil => exact ⟨[], rfl⟩
  | cons a as ih =>
    by_cases hp : p a
    · obtain ⟨t, ht⟩ := ih
      exact ⟨a :: t, by rw [List.dropWhile_cons, if_pos hp]; simpa using ht⟩
    · exact ⟨[], by rw [List.nil_append, List.dropWhile_cons, if_neg hp]⟩

lemma head_rstripWs {l : List Char} {c : Char}
    (h : (rstripWs l).head? = some c) : l.head? = some c := by
  obtain ⟨t, ht⟩ := suffix_dropWhile pyIsSpace l.reverse
  have hl : l = (l.reverse.dropWhile pyIsSpace).reverse ++ t.reverse := by
    have := congrArg List.reverse ht
    rw [List.reverse_append, List.reverse_reverse] at this
    exact this.symm
  unfold rstripWs at h
  cases hd : (l.reverse.dropWhile pyIsSpace).reverse with
  | nil => rw [hd] at h; simp at h
  | cons x xs =>
    rw [hd] at h
    simp only [List.head?_cons, Option.some.injEq] at h
    rw [hl, hd, List.cons_append, List.head?_cons, h]

lemma dropWhile_idem (p : Char → Bool) (l : List Char) :
    (l.dropWhile p).dropWhile p = l.dropWhile p := by
  cases h : l.dropWhile p with
  | nil => rfl
  | cons c cs =>
    have hc : p c = false := head_dropWhile_false (by rw [h]; rfl)
    rw [List.dropWhile_cons, if_neg (by simp [hc])]

lemma lstripWs_of_head {l : List Char}
    (h : ∀ c, l.head? = some c → pyIsSpace c = false) : lstripWs l = l := by
  cases l with
  | nil => rfl
  | cons c cs =>
    unfold lstripWs
    rw [List.dropWhile_cons, if_neg (by simp [h c rfl])]

lemma pystrip_idem (l : List Char) : pystrip (pystrip l) = pystrip l := by
  unfold pystrip
  have h1 : lstripWs (rstripWs (lstripWs l)) = rstripWs (lstripWs l) := by
    apply lstripWs_of_head
    intro c hc
    exact head_dropWhile_false (head_rstripWs hc)
  rw [h1]
  unfold rstripWs
  rw [List.reverse_reverse, dropWhile_idem]

/-! ### C3 -/

/-- C3 (counterexample): `clean_transcription` is not idempotent — on the
input `"e"` it returns `", e"`, and re-applying it to `", e"` inserts a
second comma, giving `", , e"`. -/
theorem clean_transcription_not_idempotent :
    clean_transcription (clean_transcription "e".data) ≠ clean_transcription "e".data := by
  decide

/-- C3 (amended): the output of `clean_transcription` has no leading or
trailing whitespace (it is a fixed point of Python's `strip`), but the
normalization is *not* idempotent: each re-application inserts a further
comma before every standalone connector occurrence. -/
theorem clean_transcription_no_edge_whitespace (s : List Char) :
    pystrip (clean_transcription s) = clean_transcription s := by
  unfold clean_transcription
  exact pystrip_idem _

/-- Closed instantiation of `clean_transcription_no_edge_whitespace`. -/
theorem clean_transcription_no_edge_whitespace_witness :
    pystrip (clean_transcription " e b ".data) = clean_transcription " e b ".data :=
  clean_transcription_no_edge_whitespace " e b ".data

/-! ### Supporting lemmas about the timestamp formatter -/

lemma fdiv_thousand_sixty (n : ℤ) : (n.fdiv 1000).fdiv 60 = n.fdiv 60000 := by
  have h1 : Int.fdiv n 1000 = n / 1000 := Int.fdiv_eq_ediv _ (by norm_num)
  have h2 : Int.fdiv (n / 1000) 60 = n / 1000 / 60 := Int.fdiv_eq_ediv _ (by norm_num)
  have h3 : Int.fdiv n 60000 = n / 60000 := Int.fdiv_eq_ediv _ (by norm_num)
  rw [h1, h2, h3]
  omega

lemma pad2_length_two {z : ℤ} (h0 : 0 ≤ z) (h60 : z < 60) : (pad2 z).length = 2 := by
  have aux : ∀ m : Fin 60, (pad2 ((m : ℕ) : ℤ)).length = 2 := by decide
  have hz : ((z.toNat : ℕ) : ℤ) = z := Int.toNat_of_nonneg h0
  have hlt : z.toNat < 60 := by omega
  have := aux ⟨z.toNat, hlt⟩
  rw [hz] at this
  exact this

lemma format_timestamp_floor_eq (ms : ℤ) :
    format_timestamp ms =
      '(' :: (toString (ms / 60000)).data ++ ':' :: pad2 (ms / 1000 % 60) ++ [')'] := by
  unfold format_timestamp
  rw [fdiv_thousand_sixty,
    Int.fdiv_eq_ediv ms (by norm_num : (0:ℤ) ≤ 60000),
    Int.fdiv_eq_ediv ms (by norm_num : (0:ℤ) ≤ 1000),
    Int.fmod_eq_emod _ (by norm_num : (0:ℤ) ≤ 60)]

/-! ### C4 -/

/-- C4 (counterexample): a negative offset is not rejected — the source has
no validation, and Python's floor division formats `-500` as `"(-1:59)"`. -/
theorem format_timestamp_negative_formats :
    format_timestamp (-500) = "(-1:59)".data := by decide

/-- C4 (amended): `format_timestamp` never fails: for every integer
millisecond offset, negative offsets included, it returns the formatted
string built from the floor quotient by 60000 and the floor remainder of
the second counter — no invalid-input rejection exists in the code. -/
theorem format_timestamp_total_on_negatives (ms : ℤ) :
    format_timestamp ms =
      '(' :: (toString (ms / 60000)).data ++ ':' :: pad2 (ms / 1000 % 60) ++ [')'] :=
  format_timestamp_floor_eq ms

/-! ### C5 -/

/-- C5: for every non-negative millisecond offset the result is `"(M:SS)"`
with `M = ⌊ms/60000⌋` rendered without padding and
`SS = ⌊ms/1000⌋ mod 60` zero-padded to exactly two digits, with no upper
bound on the minutes; in particular `0 ↦ "(0:00)"`, `61000 ↦ "(1:01)"`,
and `3600000 ↦ "(60:00)"` (no hour rollover). -/
theorem format_timestamp_nonneg_format :
    (∀ ms : ℤ, 0 ≤ ms →
      format_timestamp ms =
        '(' :: (toString (ms / 60000)).data ++ ':' :: pad2 (ms / 1000 % 60) ++ [')'] ∧
      (pad2 (ms / 1000 % 60)).length = 2) ∧
    format_timestamp 0 = "(0:00)".data ∧
    format_timestamp 61000 = "(1:01)".data ∧
    format_timestamp 3600000 = "(60:00)".data := by
  refine ⟨fun ms _ => ⟨format_timestamp_floor_eq ms, ?_⟩, by decide, by decide, by decide⟩
  exact pad2_length_two (by omega) (by omega)

/-- Closed instantiation of `format_timestamp_nonneg_format` at 123456 ms. -/
theorem format_timestamp_nonneg_format_witness :
    format_timestamp 123456 =
      '(' :: (toString ((123456 : ℤ) / 60000)).data ++
        ':' :: pad2 ((123456 : ℤ) / 1000 % 60) ++ [')'] ∧
    (pad2 ((123456 : ℤ) / 1000 % 60)).length = 2 :=
  format_timestamp_nonneg_format.1 123456 (by decide)
/-! ### Supporting lemmas about the Counter model -/

lemma lookupCount_bump (t : List Char) (acc : List (List Char × ℕ)) (w : List Char) :
    lookupCount (bump t acc) w = lookupCount acc w + (if w = t then 1 else 0) := by
  induction acc with
  | nil =>
    by_cases h : w = t
    · simp [bump, lookupCount, h]
    · have h' : ¬ t = w := fun e => h e.symm
      simp [bump, lookupCount, h, h']
  | cons p ps ih =>
    unfold bump
    by_cases hp : p.1 = t
    · rw [if_pos hp]
      unfold lookupCount
      by_cases hw : p.1 = w
      · have hwt : w = t := by rw [← hw, hp]
        rw [if_pos hw, if_pos hw, if_pos hwt]
      · have hwt : ¬ w = t := fun h => hw (by rw [hp, h])
        rw [if_neg hw, if_neg hw, if_neg hwt]
        simp [lookupCount]
    · rw [if_neg hp]
      unfold lookupCount
      by_cases hw : p.1 = w
      · have hwt : ¬ w = t := fun h => hp (by rw [hw, h])
        rw [if_pos hw, if_pos hw, if_neg hwt]
        simp
      · rw [if_neg hw, if_neg hw]
        exact ih

lemma lookupCount_countsAux (l : List (List Char)) :
    ∀ (acc : List (List Char × ℕ)) (w : List Char),
      lookupCount (l.foldl (fun acc w => bump w acc) acc) w =
        lookupCount acc w + l.count w := by
  induction l with
  | nil => intro acc w; simp
  | cons t ts ih =>
    intro acc w
    rw [List.foldl_cons, ih, lookupCount_bump, List.count_cons]
    by_cases h : w = t
    · rw [if_pos h, if_pos (by simp [h])]
      omega
    · rw [if_neg h, if_neg (by simp only [beq_iff_eq]; exact fun e => h e.symm)]
      omega

lemma lookupCount_countsList (l : List (List Char)) (w : List Char) :
    lookupCount (countsList l) w = l.count w := by
  have := lookupCount_countsAux l [] w
  simpa [countsList, lookupCount] using this

/-! ### Tokens contain no whitespace -/

lemma splitWsGo_no_space : ∀ (l acc : List Char),
    (∀ c ∈ acc, pyIsSpace c = false) →
    ∀ w ∈ splitWsGo acc l, ∀ c ∈ w, pyIsSpace c = false := by
  intro l
  induction l with
  | nil =>
    intro acc hacc w hw c hc
    unfold splitWsGo at hw
    by_cases hae : acc.isEmpty
    · rw [if_pos hae] at hw; simp at hw
    · rw [if_neg hae] at hw
      rw [List.mem_singleton] at hw
      subst hw
      exact hacc c (List.mem_reverse.mp hc)
  | cons a as ih =>
    intro acc hacc w hw c hc
    unfold splitWsGo at hw
    by_cases ha : pyIsSpace a
    · rw [if_pos ha] at hw
      by_cases hae : acc.isEmpty
      · rw [if_pos hae] at hw
        exact ih [] (by simp) w hw c hc
      · rw [if_neg hae] at hw
        rcases List.mem_cons.mp hw with rfl | hw'
        · exact hacc c (List.mem_reverse.mp hc)
        · exact ih [] (by simp) w hw' c hc
    · rw [if_neg ha] at hw
      refine ih (a :: acc) ?_ w hw c hc
      intro c' hc'
      rcases List.mem_cons.mp hc' with rfl | h'
      · simpa using ha
      · exact hacc c' h'

lemma pytokens_no_space {t : List Char} {w : List Char} (hw : w ∈ pytokens t) :
    ∀ c ∈ w, pyIsSpace c = false :=
  splitWsGo_no_space _ [] (by simp) w hw

lemma count_multiword_zero {t w : List Char} (hsp : ' ' ∈ w) :
    (pytokens t).count w = 0 := by
  rw [List.count_eq_zero]
  intro hmem
  have := pytokens_no_space hmem ' ' hsp
  simp [pyIsSpace] at this

/-! ### C1 -/

/-- C1: for every text and positive duration the engine succeeds and its
`percentual_magicas` equals 100 times the summed frequency-table counts of
the magic-word entries divided by the total word count (0 when the text is
empty); a magic-word entry containing a space (such as `"por favor"`) can
never be a token and always contributes count 0; and the documented
concrete run on `"obrigado obrigado teste"` with duration 1 gives total 3,
table `[("obrigado",2), ("teste",1)]` and percentage `(2/3)·100`. -/
theorem magic_word_percentage :
    (∀ (texto : List Char) (d : ℚ), 0 < d →
      ∃ st, calcular_estatisticas texto d = Except.ok st ∧
        st.percentual_magicas =
          (if st.total_palavras = 0 then 0 else
            100 * (((MAGIC_WORDS.map fun w => (pytokens texto).count w).sum : ℚ)) /
              (st.total_palavras : ℚ)) ∧
        (∀ w ∈ MAGIC_WORDS, ' ' ∈ w → (pytokens texto).count w = 0)) ∧
    calcular_estatisticas "obrigado obrigado teste".data 1 =
      Except.ok ⟨3, 3, [("obrigado".data, 2), ("teste".data, 1)], 200 / 3⟩ := by
  constructor
  · intro texto d hd
    have hd0 : ¬ d = 0 := ne_of_gt hd
    refine ⟨⟨(pytokens texto).length,
             ((pytokens texto).length : ℚ) / d,
             sortDesc (countsList (pytokens texto)),
             if (pytokens texto).length > 0 then
               (((MAGIC_WORDS.map fun w =>
                   lookupCount (countsList (pytokens texto)) w).sum : ℚ) /
                 ((pytokens texto).length : ℚ)) * 100
             else 0⟩, ?_, ?_, ?_⟩
    · unfold calcular_estatisticas
      rw [if_neg hd0]
    · dsimp only
      simp only [lookupCount_countsList]
      by_cases hl : (pytokens texto).length = 0
      · simp [hl]
      · rw [if_pos (Nat.pos_of_ne_zero hl), if_neg hl]
        ring
    · intro w _ hsp
      exact count_multiword_zero hsp
  · with_unfolding_all decide

/-- Closed instantiation of `magic_word_percentage` at text `"por favor"`
and duration 2. -/
theorem magic_word_percentage_witness :
    ∃ st, calcular_estatisticas "por favor".data 2 = Except.ok st ∧
      st.percentual_magicas =
        (if st.total_palavras = 0 then 0 else
          100 * (((MAGIC_WORDS.map fun w => (pytokens "por favor".data).count w).sum : ℚ)) /
            (st.total_palavras : ℚ)) ∧
      (∀ w ∈ MAGIC_WORDS, ' ' ∈ w → (pytokens "por favor".data).count w = 0) :=
  magic_word_percentage.1 "por favor".data 2 (by decide)

/-! ### C7 -/

/-- C7 (counterexample): a negative duration is not rejected — on text
`"a"` with duration −1 the engine silently returns a result whose
words-per-minute value is the negative number −1. -/
theorem negative_duration_not_rejected :
    calcular_estatisticas "a".data (-1) = Except.ok ⟨1, -1, [("a".data, 1)], 0⟩ := by
  with_unfolding_all decide

/-- C7 (amended): the engine fails (with Python's `ZeroDivisionError`)
exactly when the duration is 0; for every non-zero duration — negative
durations included — it returns a result, so non-positive durations are
not rejected in general. -/
theorem duration_zero_only_failure (texto : List Char) (d : ℚ) :
    (∃ e, calcular_estatisticas texto d = Except.error e) ↔ d = 0 := by
  unfold calcular_estatisticas
  by_cases hd : d = 0
  · simp [hd]
  · simp [hd]
/-! ### Key-order lemmas for the Counter model -/

lemma keys_bump_mem {t : List Char} {acc : List (List Char × ℕ)} (h : t ∈ keys acc) :
    keys (bump t acc) = keys acc := by
  induction acc with
  | nil => simp [keys] at h
  | cons p ps ih =>
    unfold bump
    by_cases hp : p.1 = t
    · rw [if_pos hp]; rfl
    · rw [if_neg hp]
      have ht : t ∈ keys ps := by
        simp only [keys, List.map_cons, List.mem_cons] at h
        rcases h with h' | h'
        · exact absurd h'.symm hp
        · exact h'
      have := ih ht
      simp only [keys, List.map_cons] at this ⊢
      rw [this]

lemma keys_bump_not_mem {t : List Char} {acc : List (List Char × ℕ)} (h : t ∉ keys acc) :
    keys (bump t acc) = keys acc ++ [t] := by
  induction acc with
  | nil => simp [bump, keys]
  | cons p ps ih =>
    unfold bump
    have hp : ¬ p.1 = t := by
      intro e
      exact h (by simp only [keys, List.map_cons, List.mem_cons]; exact Or.inl e.symm)
    rw [if_neg hp]
    have ht : t ∉ keys ps :=
      fun hm => h (by simp only [keys, List.map_cons, List.mem_cons]; exact Or.inr hm)
    have := ih ht
    simp only [keys, List.map_cons] at this ⊢
    rw [this, List.cons_append]

lemma mem_keys_bump {w t : List Char} {acc : List (List Char × ℕ)} :
    w ∈ keys (bump t acc) ↔ w = t ∨ w ∈ keys acc := by
  by_cases h : t ∈ keys acc
  · rw [keys_bump_mem h]
    constructor
    · exact Or.inr
    · rintro (rfl | hw)
      · exact h
      · exact hw
  · rw [keys_bump_not_mem h, List.mem_append, List.mem_singleton]
    tauto

lemma firstIdx_cons (x w : List Char) (xs : List (List Char)) :
    firstIdx (x :: xs) w = if x = w then 0 else firstIdx xs w + 1 := rfl

lemma firstIdx_append_left {w : List Char} : ∀ {A : List (List Char)}, w ∈ A →
    ∀ B, firstIdx (A ++ B) w < A.length := by
  intro A
  induction A with
  | nil => intro h; simp at h
  | cons x xs ih =>
    intro h B
    rw [List.cons_append, firstIdx_cons]
    by_cases hx : x = w
    · rw [if_pos hx]; simp
    · rw [if_neg hx]
      have hw : w ∈ xs := by
        rcases List.mem_cons.mp h with h' | h'
        · exact absurd h'.symm hx
        · exact h'
      have := ih hw B
      simp only [List.length_cons]
      omega

lemma firstIdx_append_right {w : List Char} : ∀ {A : List (List Char)}, w ∉ A →
    ∀ B, firstIdx (A ++ B) w = A.length + firstIdx B w := by
  intro A
  induction A with
  | nil => intro _ B; simp [firstIdx]
  | cons x xs ih =>
    intro h B
    rw [List.cons_append, firstIdx_cons]
    have hx : ¬ x = w := fun e => h (by rw [← e]; exact List.mem_cons_self x xs)
    rw [if_neg hx]
    have hxs : w ∉ xs := fun hm => h (List.mem_cons_of_mem _ hm)
    rw [ih hxs B]
    simp only [List.length_cons]
    omega

lemma pairwise_keys_countsAux (L : List (List Char)) :
    ∀ (rest seen : List (List Char)) (acc : List (List Char × ℕ)),
      L = seen ++ rest →
      (∀ w, w ∈ keys acc ↔ w ∈ seen) →
      (keys acc).Pairwise (fun a b => firstIdx L a < firstIdx L b) →
      (keys (rest.foldl (fun a w => bump w a) acc)).Pairwise
        (fun a b => firstIdx L a < firstIdx L b) := by
  intro rest
  induction rest with
  | nil => intro seen acc _ _ hp; simpa using hp
  | cons t ts ih =>
    intro seen acc hL hmem hp
    rw [List.foldl_cons]
    refine ih (seen ++ [t]) (bump t acc) ?_ ?_ ?_
    · rw [hL]; simp
    · intro w
      rw [mem_keys_bump, hmem w, List.mem_append, List.mem_singleton]
      tauto
    · by_cases ht : t ∈ keys acc
      · rw [keys_bump_mem ht]; exact hp
      · rw [keys_bump_not_mem ht, List.pairwise_append]
        refine ⟨hp, List.pairwise_singleton _ _, ?_⟩
        intro a ha b hb
        rw [List.mem_singleton] at hb
        rw [hb]
        have haseen : a ∈ seen := (hmem a).mp ha
        have htseen : t ∉ seen := fun hs => ht ((hmem t).mpr hs)
        have h1 : firstIdx L a < seen.length := by
          rw [hL]; exact firstIdx_append_left haseen _
        have h2 : seen.length ≤ firstIdx L t := by
          rw [hL, firstIdx_append_right htseen]
          omega
        omega

lemma pairwise_keys_countsList (l : List (List Char)) :
    (keys (countsList l)).Pairwise (fun a b => firstIdx l a < firstIdx l b) := by
  have := pairwise_keys_countsAux l l [] [] rfl (by simp [keys]) (by simp [keys])
  simpa [countsList] using this

/-! ### Lemmas about the stable descending sort -/

lemma mem_insDesc {x y : List Char × ℕ} : ∀ {m}, y ∈ insDesc x m → y = x ∨ y ∈ m := by
  intro m
  induction m with
  | nil =>
    intro h
    simp [insDesc] at h
    exact Or.inl h
  | cons p t ih =>
    intro hy
    unfold insDesc at hy
    by_cases hle : p.2 ≤ x.2
    · rw [if_pos hle] at hy
      rcases List.mem_cons.mp hy with rfl | hy'
      · exact Or.inl rfl
      · exact Or.inr hy'
    · rw [if_neg hle] at hy
      rcases List.mem_cons.mp hy with rfl | hy'
      · exact Or.inr (List.mem_cons_self _ _)
      · rcases ih hy' with h' | h'
        · exact Or.inl h'
        · exact Or.inr (List.mem_cons_of_mem _ h')

lemma mem_sortDesc {y : List Char × ℕ} : ∀ {l}, y ∈ sortDesc l → y ∈ l := by
  intro l
  induction l with
  | nil => intro h; simp [sortDesc] at h
  | cons x xs ih =>
    intro hy
    unfold sortDesc at hy
    rcases mem_insDesc hy with rfl | hy'
    · exact List.mem_cons_self _ _
    · exact List.mem_cons_of_mem _ (ih hy')

lemma insDesc_perm (x : List Char × ℕ) : ∀ m, List.Perm (insDesc x m) (x :: m) := by
  intro m
  induction m with
  | nil => simp [insDesc]
  | cons p t ih =>
    unfold insDesc
    by_cases hle : p.2 ≤ x.2
    · rw [if_pos hle]
    · rw [if_neg hle]
      exact List.Perm.trans (List.Perm.cons p ih) (List.Perm.swap x p t)

lemma sortDesc_perm : ∀ l, List.Perm (sortDesc l) l := by
  intro l
  induction l with
  | nil => simp [sortDesc]
  | cons x xs ih =>
    unfold sortDesc
    exact List.Perm.trans (insDesc_perm x _) (List.Perm.cons x ih)

lemma insDesc_pairwise (x : List Char × ℕ) {Q : List Char × ℕ → List Char × ℕ → Prop} :
    ∀ {m : List (List Char × ℕ)},
      m.Pairwise (fun a b => b.2 < a.2 ∨ (b.2 = a.2 ∧ Q a b)) →
      (∀ y ∈ m, Q x y) →
      (insDesc x m).Pairwise (fun a b => b.2 < a.2 ∨ (b.2 = a.2 ∧ Q a b)) := by
  intro m
  induction m with
  | nil => intro _ _; simp [insDesc]
  | cons p t ih =>
    intro hm hx
    have hpt := List.pairwise_cons.mp hm
    unfold insDesc
    by_cases hle : p.2 ≤ x.2
    · rw [if_pos hle]
      refine List.pairwise_cons.mpr ⟨?_, hm⟩
      intro y hy
      rcases List.mem_cons.mp hy with rfl | hyt
      · rcases Nat.lt_or_ge y.2 x.2 with hlt | hge
        · exact Or.inl hlt
        · exact Or.inr ⟨Nat.le_antisymm hle hge, hx y (List.mem_cons_self _ _)⟩
      · have hpy := hpt.1 y hyt
        rcases hpy with hlt | ⟨heq, _⟩
        · exact Or.inl (lt_of_lt_of_le hlt hle)
        · rcases Nat.lt_or_ge y.2 x.2 with h' | h'
          · exact Or.inl h'
          · refine Or.inr ⟨Nat.le_antisymm (heq ▸ hle) h', hx y (List.mem_cons_of_mem _ hyt)⟩
    · rw [if_neg hle]
      refine List.pairwise_cons.mpr
        ⟨?_, ih hpt.2 (fun y hy => hx y (List.mem_cons_of_mem _ hy))⟩
      intro y hy
      rcases mem_insDesc hy with rfl | hyt
      · exact Or.inl (Nat.lt_of_not_le hle)
      · exact hpt.1 y hyt

lemma sortDesc_pairwise {Q : List Char × ℕ → List Char × ℕ → Prop} :
    ∀ {l}, l.Pairwise Q →
      (sortDesc l).Pairwise (fun a b => b.2 < a.2 ∨ (b.2 = a.2 ∧ Q a b)) := by
  intro l
  induction l with
  | nil => intro _; simp [sortDesc]
  | cons x xs ih =>
    intro hp
    have h' := List.pairwise_cons.mp hp
    unfold sortDesc
    exact insDesc_pairwise x (ih h'.2) (fun y hy => h'.1 y (mem_sortDesc hy))

/-! ### C6 -/

/-- C6: the ordered (word, count) sequence returned by the statistics
engine is sorted by count descending, and among entries with equal counts
the word whose first occurrence in the lowercased whitespace-split token
stream comes earlier appears earlier (the engine is a pure function, so
the output is identical across repeated runs on identical input). -/
theorem freq_table_sorted_stable :
    ∀ (texto : List Char) (d : ℚ) (st : Estatisticas),
      calcular_estatisticas texto d = Except.ok st →
      st.palavras_ordenadas.Pairwise (fun a b =>
        b.2 ≤ a.2 ∧ (a.2 = b.2 →
          firstIdx (pytokens texto) a.1 < firstIdx (pytokens texto) b.1)) := by
  intro texto d st h
  unfold calcular_estatisticas at h
  by_cases hd : d = 0
  · rw [if_pos hd] at h
    exact absurd h (by simp)
  · rw [if_neg hd] at h
    injection h with h'
    have hst : st.palavras_ordenadas = sortDesc (countsList (pytokens texto)) := by
      rw [← h']
    rw [hst]
    have hQ : (countsList (pytokens texto)).Pairwise
        (fun p q => firstIdx (pytokens texto) p.1 < firstIdx (pytokens texto) q.1) := by
      have := pairwise_keys_countsList (pytokens texto)
      unfold keys at this
      rw [List.pairwise_map] at this
      exact this
    refine (sortDesc_pairwise hQ).imp ?_
    intro a b hab
    rcases hab with hlt | ⟨heq, hq⟩
    · exact ⟨Nat.le_of_lt hlt, fun he => absurd hlt (by omega)⟩
    · exact ⟨Nat.le_of_eq heq, fun _ => hq⟩

/-- Closed instantiation of `freq_table_sorted_stable` on the four-token
text `"b a b a"`, whose two words tie at count 2. -/
theorem freq_table_sorted_stable_witness :
    ([("b".data, 2), ("a".data, 2)] : List (List Char × ℕ)).Pairwise (fun a b =>
      b.2 ≤ a.2 ∧ (a.2 = b.2 →
        firstIdx (pytokens "b a b a".data) a.1 < firstIdx (pytokens "b a b a".data) b.1)) :=
  freq_table_sorted_stable "b a b a".data 1 ⟨4, 4, [("b".data, 2), ("a".data, 2)], 0⟩
    (by with_unfolding_all decide)

/-! ### Sum and bound lemmas for C10 -/

lemma sum_snd_bump (t : List Char) : ∀ acc : List (List Char × ℕ),
    ((bump t acc).map Prod.snd).sum = (acc.map Prod.snd).sum + 1 := by
  intro acc
  induction acc with
  | nil => simp [bump]
  | cons p ps ih =>
    unfold bump
    by_cases hp : p.1 = t
    · rw [if_pos hp]
      simp only [List.map_cons, List.sum_cons]
      omega
    · rw [if_neg hp]
      simp only [List.map_cons, List.sum_cons, ih]
      omega

lemma sum_snd_countsAux (l : List (List Char)) :
    ∀ acc, ((l.foldl (fun a w => bump w a) acc).map Prod.snd).sum
      = (acc.map Prod.snd).sum + l.length := by
  induction l with
  | nil => intro acc; simp
  | cons t ts ih =>
    intro acc
    rw [List.foldl_cons, ih, sum_snd_bump]
    simp only [List.length_cons]
    omega

lemma sum_snd_countsList (l : List (List Char)) :
    ((countsList l).map Prod.snd).sum = l.length := by
  have := sum_snd_countsAux l []
  simpa [countsList] using this

lemma nodup_keys_countsList (l : List (List Char)) : (keys (countsList l)).Nodup := by
  have h := pairwise_keys_countsList l
  refine h.imp ?_
  intro a b hab he
  rw [he] at hab
  exact lt_irrefl _ hab

lemma mem_keys_countsAux (l : List (List Char)) :
    ∀ acc w, w ∈ keys (l.foldl (fun a w => bump w a) acc) ↔ w ∈ keys acc ∨ w ∈ l := by
  induction l with
  | nil => intro acc w; simp
  | cons t ts ih =>
    intro acc w
    rw [List.foldl_cons, ih, mem_keys_bump, List.mem_cons]
    tauto

lemma mem_keys_countsList (l : List (List Char)) (w : List Char) :
    w ∈ keys (countsList l) ↔ w ∈ l := by
  have := mem_keys_countsAux l [] w
  simpa [countsList, keys] using this

lemma sum_map_add_nat (f g : List Char → ℕ) : ∀ ws : List (List Char),
    (ws.map fun w => f w + g w).sum = (ws.map f).sum + (ws.map g).sum := by
  intro ws
  induction ws with
  | nil => simp
  | cons x xs ih =>
    simp only [List.map_cons, List.sum_cons, ih]
    omega

lemma sum_ite_eq_count (x : List Char) : ∀ ws : List (List Char),
    (ws.map fun w => if w = x then 1 else 0).sum = ws.count x := by
  intro ws
  induction ws with
  | nil => simp
  | cons w ws ih =>
    rw [List.map_cons, List.sum_cons, ih, List.count_cons]
    by_cases h : w = x
    · rw [if_pos h, if_pos (by simp [h])]
      omega
    · rw [if_neg h, if_neg (by simp only [beq_iff_eq]; exact h)]
      omega

lemma nodup_count_le_one {x : List Char} : ∀ {ws : List (List Char)},
    ws.Nodup → ws.count x ≤ 1 := by
  intro ws
  induction ws with
  | nil => intro _; simp
  | cons w t ih =>
    intro h
    have hnd := List.nodup_cons.mp h
    rw [List.count_cons]
    by_cases he : w = x
    · subst he
      have hz : t.count w = 0 := by
        rw [List.count_eq_zero]
        exact hnd.1
      rw [hz, if_pos (by simp)]
    · rw [if_neg (by simp only [beq_iff_eq]; exact he)]
      simpa using ih hnd.2

lemma sum_counts_le_length (ws : List (List Char)) (hws : ws.Nodup) :
    ∀ l : List (List Char), (ws.map fun w => l.count w).sum ≤ l.length := by
  intro l
  induction l with
  | nil =>
    have hz : (ws.map fun w => List.count w ([] : List (List Char))) =
        ws.map fun _ => 0 := by
      simp
    rw [hz]
    have hz2 : ∀ vs : List (List Char), (vs.map fun _ => (0:ℕ)).sum = 0 := by
      intro vs
      induction vs with
      | nil => simp
      | cons v vt ihv => simp [ihv]
    simp [hz2]
  | cons x xs ih =>
    have hstep : ∀ w : List Char,
        List.count w (x :: xs) = List.count w xs + (if w = x then 1 else 0) := by
      intro w
      rw [List.count_cons]
      by_cases h : w = x
      · rw [if_pos (by simp [h]), if_pos h]
      · rw [if_neg (by simp only [beq_iff_eq]; exact fun e => h e.symm), if_neg h]
    simp only [hstep]
    rw [sum_map_add_nat, sum_ite_eq_count]
    have hc : ws.count x ≤ 1 := nodup_count_le_one hws
    simp only [List.length_cons]
    omega

/-! ### C10 -/

set_option maxHeartbeats 1000000 in
/-- C10: for every text and positive duration the returned statistics are
internally consistent — the counts in the ordered frequency table sum to
`total_palavras`, its words are pairwise distinct and are exactly the
tokens of the lowercased whitespace-split text, and consequently
`percentual_magicas` lies within [0, 100]. -/
theorem estatisticas_invariants :
    ∀ (texto : List Char) (d : ℚ), 0 < d →
      ∃ st, calcular_estatisticas texto d = Except.ok st ∧
        (st.palavras_ordenadas.map Prod.snd).sum = st.total_palavras ∧
        (st.palavras_ordenadas.map Prod.fst).Nodup ∧
        (∀ w, w ∈ st.palavras_ordenadas.map Prod.fst ↔ w ∈ pytokens texto) ∧
        0 ≤ st.percentual_magicas ∧ st.percentual_magicas ≤ 100 := by
  intro texto d hd
  have hd0 : ¬ d = 0 := ne_of_gt hd
  refine ⟨⟨(pytokens texto).length,
           ((pytokens texto).length : ℚ) / d,
           sortDesc (countsList (pytokens texto)),
           if (pytokens texto).length > 0 then
             (((MAGIC_WORDS.map fun w =>
                 lookupCount (countsList (pytokens texto)) w).sum : ℚ) /
               ((pytokens texto).length : ℚ)) * 100
           else 0⟩, ?_, ?_, ?_, ?_, ?_, ?_⟩
  · unfold calcular_estatisticas
    rw [if_neg hd0]
  · dsimp only
    have hperm : List.Perm ((sortDesc (countsList (pytokens texto))).map Prod.snd)
        ((countsList (pytokens texto)).map Prod.snd) := (sortDesc_perm _).map _
    rw [hperm.sum_eq, sum_snd_countsList]
  · dsimp only
    have hperm : List.Perm ((sortDesc (countsList (pytokens texto))).map Prod.fst)
        ((countsList (pytokens texto)).map Prod.fst) := (sortDesc_perm _).map _
    rw [hperm.nodup_iff]
    have := nodup_keys_countsList (pytokens texto)
    unfold keys at this
    exact this
  · dsimp only
    intro w
    have hperm : List.Perm ((sortDesc (countsList (pytokens texto))).map Prod.fst)
        ((countsList (pytokens texto)).map Prod.fst) := (sortDesc_perm _).map _
    rw [hperm.mem_iff]
    have := mem_keys_countsList (pytokens texto) w
    unfold keys at this
    exact this
  · dsimp only
    by_cases hl : (pytokens texto).length > 0
    · rw [if_pos hl]
      positivity
    · rw [if_neg hl]
  · dsimp only
    by_cases hl : (pytokens texto).length > 0
    · rw [if_pos hl]
      simp only [lookupCount_countsList]
      have hle := sum_counts_le_length MAGIC_WORDS (by decide) (pytokens texto)
      have hpos : (0:ℚ) < ((pytokens texto).length : ℚ) := by exact_mod_cast hl
      have hdiv : (((MAGIC_WORDS.map fun w => (pytokens texto).count w).sum : ℚ)) /
          ((pytokens texto).length : ℚ) ≤ 1 := by
        rw [div_le_one hpos]
        exact_mod_cast hle
      calc (((MAGIC_WORDS.map fun w => (pytokens texto).count w).sum : ℚ)) /
            ((pytokens texto).length : ℚ) * 100 ≤ 1 * 100 :=
          mul_le_mul_of_nonneg_right hdiv (by norm_num)
        _ = 100 := by norm_num
    · rw [if_neg hl]
      norm_num

/-- Closed instantiation of `estatisticas_invariants` on text `"a b a"`
with duration 1. -/
theorem estatisticas_invariants_witness :
    ∃ st, calcular_estatisticas "a b a".data 1 = Except.ok st ∧
      (st.palavras_ordenadas.map Prod.snd).sum = st.total_palavras ∧
      (st.palavras_ordenadas.map Prod.fst).Nodup ∧
      (∀ w, w ∈ st.palavras_ordenadas.map Prod.fst ↔ w ∈ pytokens "a b a".data) ∧
      0 ≤ st.percentual_magicas ∧ st.percentual_magicas ≤ 100 :=
  estatisticas_invariants "a b a".data 1 (by decide)

/-! ### C2 -/

/-- C2: the sentiment classifier lowercases, splits on whitespace, counts
tokens belonging to the fixed positive and negative keyword lists, and
returns Positive ("Satisfeito") iff positive_count > negative_count,
Negative ("Insatisfeito") iff negative_count > positive_count, and
Neutral ("Neutro") iff the counts are equal (including the 0/0 tie); the
three documented example sentences classify as stated. -/
theorem sentiment_decision_rule :
    (∀ t : List Char,
      (analisar_sentimento t = "Satisfeito".data ↔
        ((pytokens t).filter fun w => decide (w ∈ positive_words)).length >
          ((pytokens t).filter fun w => decide (w ∈ negative_words)).length) ∧
      (analisar_sentimento t = "Insatisfeito".data ↔
        ((pytokens t).filter fun w => decide (w ∈ negative_words)).length >
          ((pytokens t).filter fun w => decide (w ∈ positive_words)).length) ∧
      (analisar_sentimento t = "Neutro".data ↔
        ((pytokens t).filter fun w => decide (w ∈ positive_words)).length =
          ((pytokens t).filter fun w => decide (w ∈ negative_words)).length)) ∧
    analisar_sentimento "o atendimento foi ótimo e excelente".data = "Satisfeito".data ∧
    analisar_sentimento "o atendimento foi péssimo".data = "Insatisfeito".data ∧
    analisar_sentimento "o atendimento foi normal".data = "Neutro".data := by
  refine ⟨?_, by decide, by decide, by decide⟩
  intro t
  unfold analisar_sentimento
  simp only [List.countP_eq_length_filter]
  set pc := ((pytokens t).filter fun w => decide (w ∈ positive_words)).length with hpc
  set nc := ((pytokens t).filter fun w => decide (w ∈ negative_words)).length with hnc
  by_cases h1 : pc > nc
  · rw [if_pos h1]
    refine ⟨⟨fun _ => h1, fun _ => rfl⟩, ?_, ?_⟩
    · exact ⟨fun heq => absurd heq (by decide), fun hgt => absurd hgt (by omega)⟩
    · exact ⟨fun heq => absurd heq (by decide), fun heq => absurd heq (by omega)⟩
  · rw [if_neg h1]
    by_cases h2 : nc > pc
    · rw [if_pos h2]
      refine ⟨?_, ⟨fun _ => h2, fun _ => rfl⟩, ?_⟩
      · exact ⟨fun heq => absurd heq (by decide), fun hgt => absurd hgt (by omega)⟩
      · exact ⟨fun heq => absurd heq (by decide), fun heq => absurd heq (by omega)⟩
    · rw [if_neg h2]
      have heq : pc = nc := by omega
      refine ⟨?_, ?_, ⟨fun _ => heq, fun _ => rfl⟩⟩
      · exact ⟨fun hbad => absurd hbad (by decide), fun hgt => absurd hgt (by omega)⟩
      · exact ⟨fun hbad => absurd hbad (by decide), fun hgt => absurd hgt (by omega)⟩

/-! ### Supporting lemmas for transcript assembly -/

lemma buildRaw_general : ∀ (segs : List Segment) (init : List Char),
    segs.foldl (fun acc s => acc ++ (lineOf s ++ ['\n', '\n'])) init =
      init ++ ((segs.map lineOf).map fun x => x ++ ['\n', '\n']).flatten := by
  intro segs
  induction segs with
  | nil => intro init; simp
  | cons s ss ih =>
    intro init
    rw [List.foldl_cons, ih]
    simp [List.append_assoc]

lemma joinSep_cons₂ (nl x y : List Char) (t : List (List Char)) :
    joinSep nl (x :: y :: t) = x ++ nl ++ joinSep nl (y :: t) := rfl

lemma flatten_map_append_nl (nl : List Char) :
    ∀ ls : List (List Char), (ls.map fun x => x ++ nl).flatten =
      (if ls.isEmpty then [] else joinSep nl ls ++ nl) := by
  intro ls
  induction ls with
  | nil => simp
  | cons x tail ih =>
    cases tail with
    | nil => simp [joinSep]
    | cons y t =>
      rw [List.map_cons, List.flatten_cons, ih]
      simp only [List.isEmpty_cons, if_neg]
      rw [joinSep_cons₂]
      simp [List.append_assoc]

lemma pystrip_append_ws {A W : List Char} (hW : ∀ c ∈ W, pyIsSpace c = true) :
    pystrip (A ++ W) = pystrip A := by
  unfold pystrip lstripWs
  rw [List.dropWhile_append]
  by_cases hA : (A.dropWhile pyIsSpace).isEmpty
  · rw [if_pos hA]
    have h1 : W.dropWhile pyIsSpace = [] := by
      rw [List.dropWhile_eq_nil_iff]
      exact fun x hx => hW x hx
    have h2 : A.dropWhile pyIsSpace = [] := by
      rwa [List.isEmpty_iff] at hA
    rw [h1, h2]
  · rw [if_neg hA]
    unfold rstripWs
    rw [List.reverse_append,
      List.dropWhile_append_of_pos (fun a ha => hW a (List.mem_reverse.mp ha))]

lemma format_transcription_eq_assembled (segs : List Segment) :
    format_transcription segs = assembledSpec segs := by
  unfold format_transcription assembledSpec
  rw [buildRaw_general, List.nil_append, flatten_map_append_nl]
  by_cases h : (segs.map lineOf).isEmpty
  · rw [if_pos h]
    have hmap : segs.map lineOf = [] := by rwa [List.isEmpty_iff] at h
    rw [hmap]
    rfl
  · rw [if_neg h]
    exact pystrip_append_ws (by decide)

/-! ### C8 -/

/-- C8: the assembled transcript equals the per-segment lines
`"{timestamp} {text}"` (timestamp from `start * 1000`, text stripped)
joined with one blank line between consecutive lines and the result
stripped; and this un-normalized assembled string is exactly what the
pipeline feeds to both the statistics engine and the sentiment
classifier. -/
theorem assembled_text_feeds_analyses (segs : List Segment) (audio_len_ms : ℚ) :
    format_transcription segs = assembledSpec segs ∧
    upload_audio_core segs audio_len_ms =
      (assembledSpec segs,
       calcular_estatisticas (assembledSpec segs) (audio_len_ms / 60000),
       analisar_sentimento (assembledSpec segs)) := by
  have h := format_transcription_eq_assembled segs
  refine ⟨h, ?_⟩
  unfold upload_audio_core
  rw [h]
  have hdur : audio_len_ms / (1000 * 60) = audio_len_ms / 60000 := by norm_num
  rw [hdur]

/-! ### C9 -/

lemma takeWhile_append_middle (p : List Char × List Char → Bool) :
    ∀ (A : List (List Char × List Char)) (b : List Char × List Char)
      (B : List (List Char × List Char)),
      (∀ a ∈ A, p a = true) → p b = false →
      (A ++ b :: B).takeWhile p = A := by
  intro A
  induction A with
  | nil =>
    intro b B _ hb
    simp [List.takeWhile_cons, hb]
  | cons a A' ih =>
    intro b B hA hb
    rw [List.cons_append, List.takeWhile_cons, if_pos (hA a (List.mem_cons_self _ _)),
      ih b B (fun x hx => hA x (List.mem_cons_of_mem _ hx)) hb]

lemma format_timestamp_ne_nil (z : ℤ) : format_timestamp z ≠ [] := by
  unfold format_timestamp
  simp

/-- C9: re-parsing the segment section of the written report (the rows
between the header row and the blank separator row) recovers exactly the
(timestamp, transcription) pairs of the assembled segments, in order, for
every segment sequence and statistics value. -/
theorem report_roundtrip (segs : List Segment) (st : Estatisticas) :
    parseSegmentRows (generate_csv segs st) = segs.map segPair := by
  unfold parseSegmentRows generate_csv
  simp only [List.drop_succ_cons, List.drop_zero]
  rw [List.append_assoc, List.cons_append]
  refine takeWhile_append_middle _ _ _ _ ?_ ?_
  · intro a ha
    rcases List.mem_map.mp ha with ⟨s, _, rfl⟩
    rw [decide_eq_true_eq]
    intro hcontra
    exact format_timestamp_ne_nil _ (congrArg Prod.fst hcontra)
  · simp
